import Mathlib

/-!
Shallow embedding of `src/Voorraadbeheer.py`: a single-location inventory
simulator with per-product LIFO batch depletion, holding-cost and
stockout-cost accounting, and CSV persistence.

Python integers are modelled by `Int`, monetary values (`cost_per_unit`,
`holding_cost`, `stockout_penalty`, returned costs) by `ℚ`.  A Python list
is a Lean `List` in the same storage order (oldest batch first, newest
last); the `while` loop of `fulfill_demand`, which works at the tail of the
list, is modelled by structural recursion on the reversed list.  A Python
dict is an association list in insertion order, which is how a dict
iterates.
-/

set_option autoImplicit false

namespace Voorraadbeheer

/-- Model of `Batch.__init__`: one stock lot with a quantity and a per-unit cost. -/
structure Batch where
  quantity : Int
  cost_per_unit : ℚ
  deriving DecidableEq, Repr

/-- Model of `Product.__init__`: name, cost parameters and the stack of
batches (storage order: oldest first, newest last). -/
structure Product where
  product_name : String
  holding_cost : ℚ
  stockout_penalty : ℚ
  batches : List Batch
  deriving DecidableEq, Repr

/-- Model of `Product.add_batch`: append a fresh batch at the tail. -/
def Product.add_batch (p : Product) (quantity : Int) (cost_per_unit : ℚ) :
    Product :=
  { p with batches := p.batches ++ [Batch.mk quantity cost_per_unit] }

/-- The `while` loop of `Product.fulfill_demand`, on the REVERSED batch
list (head = tail of the Python list).  Each constructor step is one loop
iteration that pops a batch; the two non-recursive `if` outcomes are the
iterations and condition checks that leave the list length alone.
Returns the final `fulfilled` value and the remaining (reversed) batches. -/
def fulfillLoopRev (demand : Int) : Int → List Batch → Int × List Batch
  | fulfilled, [] => (fulfilled, [])
  | fulfilled, b :: rest =>
    if fulfilled < demand then
      if b.quantity ≥ demand - fulfilled then
        -- `last_batch.quantity -= (demand - fulfilled); fulfilled = demand`
        -- then pop the tail batch exactly when its quantity hit zero
        if b.quantity - (demand - fulfilled) = 0 then
          (demand, rest)
        else
          (demand, { b with quantity := b.quantity - (demand - fulfilled) } :: rest)
      else
        -- `fulfilled += last_batch.quantity; self.batches.pop()`
        fulfillLoopRev demand (fulfilled + b.quantity) rest
    else (fulfilled, b :: rest)

/-- Model of `Product.fulfill_demand`: LIFO depletion; returns the stockout cost
`(demand - fulfilled) * stockout_penalty` (0 when fully satisfied) and the
updated product. -/
def Product.fulfill_demand (p : Product) (demand : Int) : ℚ × Product :=
  let r := fulfillLoopRev demand 0 p.batches.reverse
  let cost : ℚ :=
    if r.1 < demand then ((demand - r.1 : Int) : ℚ) * p.stockout_penalty else 0
  (cost, { p with batches := r.2.reverse })

/-- Model of `Product.calculate_holding_cost`: accumulate
`batch.quantity * self.holding_cost` over the batches. -/
def Product.calculate_holding_cost (p : Product) : ℚ :=
  p.batches.foldl (fun acc b => acc + (b.quantity : ℚ) * p.holding_cost) 0

/-- Total quantity held across a batch list. -/
def sumQ (l : List Batch) : Int :=
  (l.map Batch.quantity).sum

/-- Subtract `r` from the quantity of the FIRST batch of a list (used on
reversed lists, where the first element is the newest batch). -/
def decFirst (r : Int) : List Batch → List Batch
  | [] => []
  | b :: rest => { b with quantity := b.quantity - r } :: rest

/-- Subtract `r` from the quantity of the LAST batch of a list (the newest
batch in storage order). -/
def decLast (r : Int) : List Batch → List Batch
  | [] => []
  | [b] => [{ b with quantity := b.quantity - r }]
  | b :: rest => b :: decLast r rest

/-- Fuel-indexed version of the `while` loop of `fulfill_demand`: one unit
of fuel is one execution of the loop body.  `none` means the fuel ran out
while the loop still wanted to iterate. -/
def fulfillFuel : Nat → Int → Int → List Batch → Option (Int × List Batch)
  | _, _, fulfilled, [] => some (fulfilled, [])
  | fuel, demand, fulfilled, b :: rest =>
    if fulfilled < demand then
      match fuel with
      | 0 => none
      | fuel' + 1 =>
        if b.quantity ≥ demand - fulfilled then
          if b.quantity - (demand - fulfilled) = 0 then
            some (demand, rest)
          else
            some (demand, { b with quantity := b.quantity - (demand - fulfilled) } :: rest)
        else fulfillFuel fuel' demand (fulfilled + b.quantity) rest
    else some (fulfilled, b :: rest)

/-- Model of the Python `in` test on the products dict: is `name` a key? -/
def containsKey (ps : List (String × Product)) (name : String) : Bool :=
  ps.any (fun e => e.1 == name)

/-- Model of dict indexing `self.products[name]`, as an option: the value
stored under the first (with unique keys: the only) matching key. -/
def lookupP : List (String × Product) → String → Option Product
  | [], _ => none
  | e :: t, name => if e.1 == name then some e.2 else lookupP t name

/-- Replacing the value stored under key `name` (in-place mutation of the
product object held by the dict). -/
def updateP (ps : List (String × Product)) (name : String) (p : Product) :
    List (String × Product) :=
  ps.map (fun e => if e.1 == name then (e.1, p) else e)

/-- Model of `InventoryManager.__init__`: the products dict, as an
association list in insertion order (how a Python dict iterates). -/
structure InventoryManager where
  products : List (String × Product)
  deriving DecidableEq, Repr

/-- Model of `InventoryManager.add_product`: register a fresh empty
product; a duplicate name is reported and skipped. -/
def InventoryManager.add_product (m : InventoryManager) (product_name : String)
    (holding_cost stockout_penalty : ℚ) : InventoryManager :=
  if containsKey m.products product_name then m
  else ⟨m.products ++ [(product_name,
    Product.mk product_name holding_cost stockout_penalty [])]⟩

/-- Model of `InventoryManager.restock_product`: `add_batch` on the named
product; an unknown name is reported and skipped. -/
def InventoryManager.restock_product (m : InventoryManager) (product_name : String)
    (quantity : Int) (cost_per_unit : ℚ) : InventoryManager :=
  match lookupP m.products product_name with
  | none => m
  | some p => ⟨updateP m.products product_name (p.add_batch quantity cost_per_unit)⟩

/-- The second loop of `InventoryManager.simulate_day`: walk the demand
dict, fulfilling demand for names that are registered products and
accumulating the returned stockout costs; unknown names are skipped. -/
def stockLoop : List (String × Product) → ℚ → List (String × Int) → ℚ × List (String × Product)
  | ps, acc, [] => (acc, ps)
  | ps, acc, (product_name, demand_amount) :: rest =>
    match lookupP ps product_name with
    | none => stockLoop ps acc rest
    | some p =>
        stockLoop (updateP ps product_name (p.fulfill_demand demand_amount).2)
          (acc + (p.fulfill_demand demand_amount).1) rest

/-- Model of `InventoryManager.simulate_day`: total holding cost over ALL
registered products (computed before any depletion), then the demand loop;
returns both totals and the final manager state. -/
def InventoryManager.simulate_day (m : InventoryManager) (demand : List (String × Int)) :
    (ℚ × ℚ) × InventoryManager :=
  let total_holding_costs :=
    m.products.foldl (fun acc e => acc + e.2.calculate_holding_cost) 0
  let r := stockLoop m.products 0 demand
  ((total_holding_costs, r.1), ⟨r.2⟩)

/-- Model of the data rows written by `InventoryManager.save_to_csv`: one
row `(product_name, batch_quantity, batch_cost_per_unit)` per batch, in
storage order, products in dict order.  (The header row and the textual
encoding of the CSV file are I/O glue and are not modelled.) -/
def saveRows (ps : List (String × Product)) : List (String × Int × ℚ) :=
  ps.flatMap (fun e => e.2.batches.map (fun b => (e.1, b.quantity, b.cost_per_unit)))

/-- Model of `InventoryManager.save_to_csv` at the row level. -/
def InventoryManager.save_to_csv (m : InventoryManager) : List (String × Int × ℚ) :=
  saveRows m.products

/-- Processing one data row in `InventoryManager.load_from_csv`: append the
row as a new batch of the named product; a row naming an unknown product is
skipped with a warning. -/
def loadRow (ps : List (String × Product)) (row : String × Int × ℚ) :
    List (String × Product) :=
  match lookupP ps row.1 with
  | none => ps
  | some p => updateP ps row.1 (p.add_batch row.2.1 row.2.2)

/-- Model of `InventoryManager.load_from_csv` at the row level: fold over
the data rows in file order. -/
def InventoryManager.load_from_csv (m : InventoryManager)
    (rows : List (String × Int × ℚ)) : InventoryManager :=
  ⟨rows.foldl loadRow m.products⟩

@[simp] theorem decFirst_zero (l : List Batch) : decFirst 0 l = l := by
  cases l with
  | nil => rfl
  | cons b rest => simp [decFirst]

@[simp] theorem decLast_zero (l : List Batch) : decLast 0 l = l := by
  induction l with
  | nil => rfl
  | cons b rest ih =>
    cases rest with
    | nil => simp [decLast]
    | cons c t => simpa [decLast] using ih

theorem decLast_append_singleton (r : Int) (xs : List Batch) (b : Batch) :
    decLast r (xs ++ [b]) = xs ++ [{ b with quantity := b.quantity - r }] := by
  induction xs with
  | nil => rfl
  | cons x t ih =>
    cases t with
    | nil => simp [decLast]
    | cons y u => simpa [decLast] using ih

theorem decLast_reverse (r : Int) (l : List Batch) :
    decLast r l.reverse = (decFirst r l).reverse := by
  cases l with
  | nil => rfl
  | cons b rest =>
    simp [decFirst, List.reverse_cons, decLast_append_singleton]

@[simp] theorem sumQ_nil : sumQ [] = 0 := rfl

@[simp] theorem sumQ_cons (b : Batch) (l : List Batch) :
    sumQ (b :: l) = b.quantity + sumQ l := by
  simp [sumQ]

@[simp] theorem sumQ_append (l₁ l₂ : List Batch) :
    sumQ (l₁ ++ l₂) = sumQ l₁ + sumQ l₂ := by
  simp [sumQ]

@[simp] theorem sumQ_reverse (l : List Batch) : sumQ l.reverse = sumQ l := by
  simp [sumQ, List.sum_reverse]

theorem sumQ_nonneg (l : List Batch) (h : ∀ b ∈ l, 0 ≤ b.quantity) :
    0 ≤ sumQ l := by
  induction l with
  | nil => simp
  | cons b rest ih =>
    have hb := h b (by simp)
    have hr := ih (fun x hx => h x (by simp [hx]))
    simp only [sumQ_cons]
    omega

theorem decLast_map_cost (r : Int) (l : List Batch) :
    (decLast r l).map Batch.cost_per_unit = l.map Batch.cost_per_unit := by
  induction l with
  | nil => rfl
  | cons b rest ih =>
    cases rest with
    | nil => simp [decLast]
    | cons c t => simpa [decLast] using ih

theorem sumQ_decLast (r : Int) (l : List Batch) (h : l ≠ []) :
    sumQ (decLast r l) = sumQ l - r := by
  induction l with
  | nil => exact absurd rfl h
  | cons b rest ih =>
    cases rest with
    | nil => simp [decLast]
    | cons c t =>
      have := ih (by simp)
      simp only [decLast, sumQ_cons] at this ⊢
      omega

/-- When the loop guard `fulfilled < demand` fails on entry, the loop body
never runs: state is returned unchanged. -/
theorem fulfillLoopRev_done (d f : Int) (R : List Batch) (h : ¬ f < d) :
    fulfillLoopRev d f R = (f, R) := by
  cases R with
  | nil => rfl
  | cons b rest => simp [fulfillLoopRev, h]

/-- Shape of the loop's result, with no assumption on demand or batch
quantities: the surviving (reversed) list is a suffix of the input in which
only the first kept batch may be reduced, by some `r ≥ 0`; a nonzero
reduction is strictly smaller than that batch's quantity. -/
theorem fulfillLoopRev_shape (d : Int) (R : List Batch) :
    ∀ f : Int,
    ∃ k r, 0 ≤ r ∧ (fulfillLoopRev d f R).2 = decFirst r (R.drop k) ∧
      (r ≠ 0 → ∃ b t, R.drop k = b :: t ∧ r < b.quantity) := by
  induction R with
  | nil =>
    intro f
    exact ⟨0, 0, le_refl 0, by simp [fulfillLoopRev], by simp⟩
  | cons b rest ih =>
    intro f
    by_cases hf : f < d
    · by_cases hq : b.quantity ≥ d - f
      · by_cases hz : b.quantity - (d - f) = 0
        · refine ⟨1, 0, le_refl 0, ?_, by simp⟩
          simp [fulfillLoopRev, hf, hq, hz]
        · refine ⟨0, d - f, by omega, ?_, ?_⟩
          · simp [fulfillLoopRev, hf, hq, hz, decFirst]
          · intro _; exact ⟨b, rest, rfl, by omega⟩
      · obtain ⟨k, r, hr0, heq, hcond⟩ := ih (f + b.quantity)
        refine ⟨k + 1, r, hr0, ?_, ?_⟩
        · simpa [fulfillLoopRev, hf, hq] using heq
        · simpa using hcond
    · exact ⟨0, 0, le_refl 0, by simp [fulfillLoopRev, hf], by simp⟩

/-- When total stock (plus what is already fulfilled) cannot cover demand,
the loop exhausts every batch and fulfills exactly the total quantity. -/
theorem fulfillLoopRev_insufficient (d : Int) (R : List Batch) :
    ∀ f : Int, (∀ b ∈ R, 0 ≤ b.quantity) → f + sumQ R < d →
    fulfillLoopRev d f R = (f + sumQ R, []) := by
  induction R with
  | nil => intro f _ _; simp [fulfillLoopRev]
  | cons b rest ih =>
    intro f hpos hlt
    have hb : 0 ≤ b.quantity := hpos b (by simp)
    have hrest : 0 ≤ sumQ rest := sumQ_nonneg rest (fun x hx => hpos x (by simp [hx]))
    simp only [sumQ_cons] at hlt
    have hf : f < d := by omega
    have hq : ¬ b.quantity ≥ d - f := by omega
    have hrec := ih (f + b.quantity) (fun x hx => hpos x (by simp [hx])) (by omega)
    simp only [fulfillLoopRev, if_pos hf, if_neg hq, hrec, sumQ_cons]
    rw [add_assoc]

/-- When stock suffices, the loop fulfills the demand exactly: a suffix of
the (reversed) batch list survives, its first batch reduced by `r`, and the
dropped quantities plus `r` account for exactly the remaining need. -/
theorem fulfillLoopRev_sufficient (d : Int) (R : List Batch) :
    ∀ f : Int, (∀ b ∈ R, 0 ≤ b.quantity) → f ≤ d → d ≤ f + sumQ R →
    ∃ k r, 0 ≤ r ∧ fulfillLoopRev d f R = (d, decFirst r (R.drop k)) ∧
      sumQ (R.take k) + r = d - f ∧ (R.drop k = [] → r = 0) := by
  induction R with
  | nil =>
    intro f _ hle hge
    simp only [sumQ_nil] at hge
    have : f = d := by omega
    refine ⟨0, 0, le_refl 0, ?_, by simp [this], fun _ => rfl⟩
    simp [fulfillLoopRev, this]
  | cons b rest ih =>
    intro f hpos hle hge
    by_cases hf : f < d
    · by_cases hq : b.quantity ≥ d - f
      · by_cases hz : b.quantity - (d - f) = 0
        · refine ⟨1, 0, le_refl 0, ?_, ?_, fun _ => rfl⟩
          · simp [fulfillLoopRev, hf, hq, hz]
          · simp [sumQ]; omega
        · refine ⟨0, d - f, by omega, ?_, by simp, ?_⟩
          · simp [fulfillLoopRev, hf, hq, hz, decFirst]
          · intro h; exact absurd h (by simp)
      · have hb : 0 ≤ b.quantity := hpos b (by simp)
        simp only [sumQ_cons] at hge
        obtain ⟨k, r, hr0, heq, hsum, hnil⟩ := ih (f + b.quantity)
          (fun x hx => hpos x (by simp [hx])) (by omega) (by omega)
        refine ⟨k + 1, r, hr0, ?_, ?_, by simpa using hnil⟩
        · simpa [fulfillLoopRev, hf, hq] using heq
        · simp only [List.take_succ_cons, sumQ_cons]; omega
    · have hfd : f = d := by omega
      refine ⟨0, 0, le_refl 0, ?_, by simp [hfd], fun _ => rfl⟩
      rw [fulfillLoopRev_done d f _ hf, hfd]
      simp

theorem sumQ_decLast_of_nil_imp (r : Int) (l : List Batch) (h : l = [] → r = 0) :
    sumQ (decLast r l) = sumQ l - r := by
  cases l with
  | nil => simp [decLast, h rfl]
  | cons b rest => exact sumQ_decLast r (b :: rest) (by simp)

/-- Frame shape of `fulfill_demand` in storage order: the surviving batch
list is a prefix `A` of the original, whose LAST batch may be reduced by
some `r ≥ 0` (strictly less than its quantity when nonzero); the dropped
batches `D` form the newest suffix. -/
theorem fulfill_frame_aux (p : Product) (d : Int) :
    ∃ A D r, 0 ≤ r ∧ p.batches = A ++ D ∧
      (p.fulfill_demand d).2.batches = decLast r A ∧
      (r ≠ 0 → ∃ t b, A = t ++ [b] ∧ r < b.quantity) := by
  obtain ⟨k, r, hr0, heq, hcond⟩ := fulfillLoopRev_shape d p.batches.reverse 0
  refine ⟨(p.batches.reverse.drop k).reverse, (p.batches.reverse.take k).reverse,
    r, hr0, ?_, ?_, ?_⟩
  · conv_lhs => rw [← List.reverse_reverse p.batches,
      ← List.take_append_drop k p.batches.reverse]
    rw [List.reverse_append]
  · show ((fulfillLoopRev d 0 p.batches.reverse).2).reverse = _
    rw [heq, ← decLast_reverse]
  · intro hr
    obtain ⟨b, t, hdrop, hlt⟩ := hcond hr
    exact ⟨t.reverse, b, by rw [hdrop]; simp, hlt⟩

/-- Claim C1: for any product whose batch quantities are non-negative and any
demand `0 ≤ d ≤` total stock, `fulfill_demand d` returns stockout cost `0`,
the total quantity drops by exactly `d`, and the depletion is strictly
newest-first: the surviving batches are a prefix `A` of the original list
whose last batch is reduced by `r ≥ 0`, the dropped batches `D` are the
newest suffix, and the removals plus the reduction account for exactly `d`
(`sumQ D + r = d`). -/
theorem fulfill_demand_enough_stock (p : Product) (d : Int)
    (hpos : ∀ b ∈ p.batches, 0 ≤ b.quantity) (hd0 : 0 ≤ d)
    (hd : d ≤ sumQ p.batches) :
    (p.fulfill_demand d).1 = 0 ∧
    sumQ (p.fulfill_demand d).2.batches = sumQ p.batches - d ∧
    ∃ A D r, 0 ≤ r ∧ p.batches = A ++ D ∧
      (p.fulfill_demand d).2.batches = decLast r A ∧ sumQ D + r = d := by
  have hposR : ∀ b ∈ p.batches.reverse, 0 ≤ b.quantity :=
    fun b hb => hpos b (List.mem_reverse.mp hb)
  obtain ⟨k, r, hr0, heq, hsum, hnil⟩ :=
    fulfillLoopRev_sufficient d p.batches.reverse 0 hposR hd0 (by simpa using hd)
  have hcost : (p.fulfill_demand d).1 = 0 := by
    show (if (fulfillLoopRev d 0 p.batches.reverse).1 < d then _ else (0:ℚ)) = 0
    rw [heq]
    simp
  have hbat : (p.fulfill_demand d).2.batches
      = decLast r ((p.batches.reverse.drop k).reverse) := by
    show ((fulfillLoopRev d 0 p.batches.reverse).2).reverse = _
    rw [heq, ← decLast_reverse]
  have hsplit : p.batches
      = (p.batches.reverse.drop k).reverse ++ (p.batches.reverse.take k).reverse := by
    conv_lhs => rw [← List.reverse_reverse p.batches,
      ← List.take_append_drop k p.batches.reverse]
    rw [List.reverse_append]
  have hDsum : sumQ ((p.batches.reverse.take k).reverse) + r = d := by
    rw [sumQ_reverse]
    omega
  refine ⟨hcost, ?_, (p.batches.reverse.drop k).reverse,
    (p.batches.reverse.take k).reverse, r, hr0, hsplit, hbat, hDsum⟩
  rw [hbat, sumQ_decLast_of_nil_imp r _ (fun hA => hnil (by simpa using hA))]
  have := congrArg sumQ hsplit
  rw [sumQ_append] at this
  omega

/-- Witness for C1 at the spec's Widget scenario: batches
`[(5, 2.0), (3, 2.5)]`, demand 4. -/
theorem fulfill_demand_enough_stock_witness :
    (Product.fulfill_demand ⟨"Widget", 1, 10, [⟨5, 2⟩, ⟨3, 5/2⟩]⟩ 4).1 = 0 ∧
    sumQ (Product.fulfill_demand ⟨"Widget", 1, 10, [⟨5, 2⟩, ⟨3, 5/2⟩]⟩ 4).2.batches
      = sumQ [⟨5, 2⟩, ⟨3, 5/2⟩] - 4 ∧
    ∃ A D r, 0 ≤ r ∧ [⟨5, 2⟩, ⟨3, 5/2⟩] = A ++ D ∧
      (Product.fulfill_demand ⟨"Widget", 1, 10, [⟨5, 2⟩, ⟨3, 5/2⟩]⟩ 4).2.batches
        = decLast r A ∧ sumQ D + r = 4 :=
  fulfill_demand_enough_stock ⟨"Widget", 1, 10, [⟨5, 2⟩, ⟨3, 5/2⟩]⟩ 4
    (by decide) (by decide) (by decide)

/-- Claim C2: when demand exceeds the total stock of a product with
non-negative batch quantities, every batch is removed and the returned
stockout cost is `(demand - total_stock) * stockout_penalty`. -/
theorem fulfill_demand_stockout (p : Product) (d : Int)
    (hpos : ∀ b ∈ p.batches, 0 ≤ b.quantity) (hd : sumQ p.batches < d) :
    (p.fulfill_demand d).2.batches = [] ∧
    (p.fulfill_demand d).1 = ((d - sumQ p.batches : Int) : ℚ) * p.stockout_penalty := by
  have hposR : ∀ b ∈ p.batches.reverse, 0 ≤ b.quantity :=
    fun b hb => hpos b (List.mem_reverse.mp hb)
  have hloop := fulfillLoopRev_insufficient d p.batches.reverse 0 hposR
    (by simpa using hd)
  constructor
  · show ((fulfillLoopRev d 0 p.batches.reverse).2).reverse = []
    rw [hloop]
    rfl
  · show (if (fulfillLoopRev d 0 p.batches.reverse).1 < d
        then ((d - (fulfillLoopRev d 0 p.batches.reverse).1 : Int) : ℚ) * p.stockout_penalty
        else (0:ℚ)) = _
    rw [hloop]
    simp only [zero_add, sumQ_reverse]
    rw [if_pos hd]

/-- Witness for C2 at the spec's scenario: a single batch `(4, 2.0)`,
demand 10, penalty 10; the stockout cost is `(10 - 4) * 10 = 60`. -/
theorem fulfill_demand_stockout_witness :
    (Product.fulfill_demand ⟨"Widget", 1, 10, [⟨4, 2⟩]⟩ 10).2.batches = [] ∧
    (Product.fulfill_demand ⟨"Widget", 1, 10, [⟨4, 2⟩]⟩ 10).1
      = ((10 - sumQ [⟨4, 2⟩] : Int) : ℚ) * (10 : ℚ) :=
  fulfill_demand_stockout ⟨"Widget", 1, 10, [⟨4, 2⟩]⟩ 10 (by decide) (by decide)

/-- Claim C3, counterexample: `add_batch` performs no validation, so adding a
batch with quantity 0 to a product that satisfies the no-zero-quantity
invariant leaves a zero-quantity batch in the sequence — the claim that
every `add_batch` preserves the invariant is false. -/
theorem add_batch_zero_breaks_invariant :
    (∀ b ∈ (⟨"X", 1, 1, []⟩ : Product).batches, b.quantity ≠ 0) ∧
    ¬ (∀ b ∈ (Product.add_batch ⟨"X", 1, 1, []⟩ 0 1).batches, b.quantity ≠ 0) := by
  constructor
  · intro b hb
    simp at hb
  · intro h
    exact h ⟨0, 1⟩ (by simp [Product.add_batch]) rfl

/-- Claim C3, amended: starting from a product with no zero-quantity batch,
`fulfill_demand` always preserves the invariant (a tail batch is removed
exactly when its quantity reaches 0), and `add_batch` preserves it provided
the added quantity is nonzero. -/
theorem no_zero_batch_preserved (p : Product) (d q : Int) (c : ℚ)
    (hinv : ∀ b ∈ p.batches, b.quantity ≠ 0) :
    (∀ b ∈ (p.fulfill_demand d).2.batches, b.quantity ≠ 0) ∧
    (q ≠ 0 → ∀ b ∈ (p.add_batch q c).batches, b.quantity ≠ 0) := by
  constructor
  · obtain ⟨A, D, r, hr0, hsplit, hres, hcond⟩ := fulfill_frame_aux p d
    intro b hb
    rw [hres] at hb
    by_cases hr : r = 0
    · subst hr
      rw [decLast_zero] at hb
      exact hinv b (by rw [hsplit]; exact List.mem_append_left _ hb)
    · obtain ⟨t, b₀, hA, hlt⟩ := hcond hr
      subst hA
      rw [decLast_append_singleton] at hb
      rcases List.mem_append.mp hb with h1 | h2
      · exact hinv b (by rw [hsplit]; exact List.mem_append_left _ (List.mem_append_left _ h1))
      · have hb2 : b = { b₀ with quantity := b₀.quantity - r } := by simpa using h2
        rw [hb2]
        show b₀.quantity - r ≠ 0
        omega
  · intro hq b hb
    simp only [Product.add_batch, List.mem_append, List.mem_singleton] at hb
    rcases hb with h1 | h2
    · exact hinv b h1
    · rw [h2]
      exact hq

/-- Witness for C3 (amended) on the Widget product with batches
`[(5, 2.0), (3, 2.5)]`, demand 4, added quantity 7. -/
theorem no_zero_batch_preserved_witness :
    (∀ b ∈ (Product.fulfill_demand ⟨"Widget", 1, 10, [⟨5, 2⟩, ⟨3, 5/2⟩]⟩ 4).2.batches,
      b.quantity ≠ 0) ∧
    ((7 : Int) ≠ 0 →
      ∀ b ∈ (Product.add_batch ⟨"Widget", 1, 10, [⟨5, 2⟩, ⟨3, 5/2⟩]⟩ 7 1).batches,
        b.quantity ≠ 0) :=
  no_zero_batch_preserved ⟨"Widget", 1, 10, [⟨5, 2⟩, ⟨3, 5/2⟩]⟩ 4 7 1 (by decide)

/-- Claim C6: for every product and every demand, the surviving batch list is
a prefix `A` of the original in which only the last surviving batch's
quantity may have decreased (by `r ≥ 0`, via `decLast`), and no surviving
batch's `cost_per_unit` changes. -/
theorem fulfill_demand_frame (p : Product) (d : Int) :
    ∃ A D r, 0 ≤ r ∧ p.batches = A ++ D ∧
      (p.fulfill_demand d).2.batches = decLast r A ∧
      (p.fulfill_demand d).2.batches.map Batch.cost_per_unit
        = A.map Batch.cost_per_unit := by
  obtain ⟨A, D, r, hr0, hsplit, hres, _⟩ := fulfill_frame_aux p d
  exact ⟨A, D, r, hr0, hsplit, hres, by rw [hres, decLast_map_cost]⟩

/-- Claim C8: `fulfill_demand 0` is a no-op: the product is returned
unchanged (no batch mutated or removed) and the stockout cost is 0. -/
theorem fulfill_demand_zero_noop (p : Product) : p.fulfill_demand 0 = (0, p) := by
  have h := fulfillLoopRev_done 0 0 p.batches.reverse (by omega)
  simp [Product.fulfill_demand, h]

/-- Claim C10: the `while` loop of `fulfill_demand` terminates for every
integer demand (zero and negative included) and every finite batch list
(zero-quantity batches included): running the fuel-indexed loop with
`number of batches + 1` units of fuel never exhausts the fuel and computes
exactly the total loop function. -/
theorem fulfill_demand_terminates (p : Product) (d : Int) :
    fulfillFuel (p.batches.length + 1) d 0 p.batches.reverse
      = some (fulfillLoopRev d 0 p.batches.reverse) := by
  have main : ∀ (R : List Batch) (n : Nat) (f : Int), R.length ≤ n →
      fulfillFuel n d f R = some (fulfillLoopRev d f R) := by
    intro R
    induction R with
    | nil => intro n f _; cases n <;> simp [fulfillFuel, fulfillLoopRev]
    | cons b rest ih =>
      intro n f hn
      cases n with
      | zero => simp at hn
      | succ n' =>
        by_cases hf : f < d
        · by_cases hq : b.quantity ≥ d - f
          · by_cases hz : b.quantity - (d - f) = 0 <;>
              simp [fulfillFuel, fulfillLoopRev, hf, hq, hz]
          · have hrec := ih n' (f + b.quantity) (by simpa using hn)
            simp [fulfillFuel, fulfillLoopRev, hf, hq, hrec]
        · simp [fulfillFuel, fulfillLoopRev, hf]
  exact main p.batches.reverse (p.batches.length + 1) 0 (by simp)

theorem foldl_add_map {α : Type} (f : α → ℚ) :
    ∀ (l : List α) (acc : ℚ), l.foldl (fun a x => a + f x) acc = acc + (l.map f).sum := by
  intro l
  induction l with
  | nil => intro acc; simp
  | cons x t ih =>
    intro acc
    simp only [List.foldl_cons, List.map_cons, List.sum_cons, ih]
    ring

theorem holding_cost_eq (p : Product) :
    p.calculate_holding_cost = ((sumQ p.batches : Int) : ℚ) * p.holding_cost := by
  rw [Product.calculate_holding_cost, foldl_add_map, zero_add]
  induction p.batches with
  | nil => simp
  | cons b t ih =>
    simp only [List.map_cons, List.sum_cons, sumQ_cons, ih]
    push_cast
    ring

/-- Claim C7: `calculate_holding_cost` equals the total quantity times the
per-product holding rate, and is invariant under any permutation of the
batch sequence. -/
theorem calculate_holding_cost_spec (p : Product) :
    p.calculate_holding_cost = ((sumQ p.batches : Int) : ℚ) * p.holding_cost ∧
    ∀ l, List.Perm l p.batches →
      Product.calculate_holding_cost { p with batches := l } = p.calculate_holding_cost := by
  refine ⟨holding_cost_eq p, fun l hperm => ?_⟩
  rw [holding_cost_eq, holding_cost_eq]
  have : sumQ l = sumQ p.batches := by
    unfold sumQ
    exact (hperm.map Batch.quantity).sum_eq
  simp [this]

/-- Witness for C7: swapping the two Widget batches leaves the holding cost
unchanged. -/
theorem calculate_holding_cost_spec_witness :
    Product.calculate_holding_cost ⟨"Widget", 1, 10, [⟨3, 5/2⟩, ⟨5, 2⟩]⟩
      = Product.calculate_holding_cost ⟨"Widget", 1, 10, [⟨5, 2⟩, ⟨3, 5/2⟩]⟩ :=
  (calculate_holding_cost_spec ⟨"Widget", 1, 10, [⟨5, 2⟩, ⟨3, 5/2⟩]⟩).2
    [⟨3, 5/2⟩, ⟨5, 2⟩] (List.Perm.swap _ _ [])

/-- Claim C9: `add_product` with an already-registered name leaves the
manager (its mapping, the original product object, its parameters and its
batches) completely unchanged, and raises no error. -/
theorem add_product_duplicate_noop (m : InventoryManager) (name : String)
    (hc sp : ℚ) (h : containsKey m.products name = true) :
    m.add_product name hc sp = m := by
  simp [InventoryManager.add_product, h]

/-- Witness for C9 on a one-product manager. -/
theorem add_product_duplicate_noop_witness :
    InventoryManager.add_product ⟨[("Widget", ⟨"Widget", 1, 10, [⟨5, 2⟩]⟩)]⟩ "Widget" 3 4
      = ⟨[("Widget", ⟨"Widget", 1, 10, [⟨5, 2⟩]⟩)]⟩ :=
  add_product_duplicate_noop ⟨[("Widget", ⟨"Widget", 1, 10, [⟨5, 2⟩]⟩)]⟩ "Widget" 3 4
    (by decide)

theorem lookupP_isSome_eq_containsKey (ps : List (String × Product)) (name : String) :
    (lookupP ps name).isSome = containsKey ps name := by
  induction ps with
  | nil => rfl
  | cons e t ih =>
    simp only [lookupP, containsKey, List.any_cons] at ih ⊢
    cases he : (e.1 == name) with
    | true => simp [he]
    | false => simp [he, ih]

theorem containsKey_iff (ps : List (String × Product)) (name : String) :
    containsKey ps name = true ↔ name ∈ ps.map Prod.fst := by
  simp only [containsKey, List.any_eq_true, List.mem_map, beq_iff_eq]

theorem containsKey_updateP (ps : List (String × Product)) (n : String) (p : Product)
    (x : String) : containsKey (updateP ps n p) x = containsKey ps x := by
  induction ps with
  | nil => rfl
  | cons e t ih =>
    have hh : (if e.1 == n then (e.1, p) else e).1 = e.1 := by
      split <;> rfl
    simp only [updateP, containsKey, List.map_cons, List.any_cons, hh]
    have ht := ih
    simp only [updateP, containsKey] at ht
    rw [ht]

theorem stockLoop_acc (dem : List (String × Int)) :
    ∀ (ps : List (String × Product)) (acc : ℚ),
    (stockLoop ps acc dem).1 = acc + (stockLoop ps 0 dem).1 ∧
    (stockLoop ps acc dem).2 = (stockLoop ps 0 dem).2 := by
  induction dem with
  | nil => intro ps acc; simp [stockLoop]
  | cons e rest ih =>
    intro ps acc
    obtain ⟨name, d⟩ := e
    cases hl : lookupP ps name with
    | none => simpa [stockLoop, hl] using ih ps acc
    | some p =>
      have h1 := ih (updateP ps name (p.fulfill_demand d).2) (acc + (p.fulfill_demand d).1)
      have h2 := ih (updateP ps name (p.fulfill_demand d).2) (0 + (p.fulfill_demand d).1)
      simp only [stockLoop, hl]
      refine ⟨?_, by rw [h1.2, h2.2]⟩
      rw [h1.1, h2.1]
      ring

theorem stockLoop_filter (dem : List (String × Int)) :
    ∀ (ps : List (String × Product)) (acc : ℚ),
    stockLoop ps acc (dem.filter (fun e => containsKey ps e.1)) = stockLoop ps acc dem := by
  induction dem with
  | nil => intro ps acc; rfl
  | cons e rest ih =>
    intro ps acc
    obtain ⟨name, d⟩ := e
    cases hl : lookupP ps name with
    | none =>
      have hc : containsKey ps name = false := by
        rw [← lookupP_isSome_eq_containsKey, hl]
        rfl
      simpa [stockLoop, List.filter_cons, hc, hl] using ih ps acc
    | some p =>
      have hc : containsKey ps name = true := by
        rw [← lookupP_isSome_eq_containsKey, hl]
        rfl
      have hfc : rest.filter (fun e => containsKey ps e.1)
          = rest.filter (fun e =>
              containsKey (updateP ps name (p.fulfill_demand d).2) e.1) := by
        apply List.filter_congr
        intro x _
        rw [containsKey_updateP]
      simp only [List.filter_cons, hc, if_pos rfl]
      simp only [stockLoop, hl, hfc]
      exact ih (updateP ps name (p.fulfill_demand d).2) (acc + (p.fulfill_demand d).1)

/-- Claim C4: `simulate_day` returns as first component the sum of
`calculate_holding_cost` over ALL registered products, computed on the
pre-depletion stock (the original manager state); mapping entries with
unknown names are skipped with no effect on any component of the result;
and for a registered entry the stockout component is that product's
`fulfill_demand` result plus the stockout total of the rest of the mapping
run on the updated state. -/
theorem simulate_day_spec (m : InventoryManager) (demand : List (String × Int)) :
    (m.simulate_day demand).1.1
      = (m.products.map (fun e => e.2.calculate_holding_cost)).sum ∧
    m.simulate_day demand
      = m.simulate_day (demand.filter (fun e => containsKey m.products e.1)) ∧
    (∀ (name : String) (d : Int) (rest : List (String × Int)) (p : Product),
      lookupP m.products name = some p →
      (m.simulate_day ((name, d) :: rest)).1.2
        = (p.fulfill_demand d).1
          + ((InventoryManager.mk
              (updateP m.products name (p.fulfill_demand d).2)).simulate_day rest).1.2) := by
  refine ⟨?_, ?_, ?_⟩
  · show m.products.foldl (fun acc e => acc + e.2.calculate_holding_cost) 0 = _
    rw [foldl_add_map, zero_add]
  · show ((List.foldl (fun acc e => acc + e.2.calculate_holding_cost) 0 m.products,
        (stockLoop m.products 0 demand).1),
        (⟨(stockLoop m.products 0 demand).2⟩ : InventoryManager))
      = ((List.foldl (fun acc e => acc + e.2.calculate_holding_cost) 0 m.products,
        (stockLoop m.products 0 (demand.filter (fun e => containsKey m.products e.1))).1),
        (⟨(stockLoop m.products 0
            (demand.filter (fun e => containsKey m.products e.1))).2⟩ : InventoryManager))
    rw [stockLoop_filter]
  · intro name d rest p hl
    show (stockLoop m.products 0 ((name, d) :: rest)).1 = _
    simp only [stockLoop, hl]
    have h1 := stockLoop_acc rest (updateP m.products name (p.fulfill_demand d).2)
      (0 + (p.fulfill_demand d).1)
    rw [h1.1]
    show _ = (p.fulfill_demand d).1 + (stockLoop (updateP m.products name (p.fulfill_demand d).2) 0 rest).1
    ring

/-- Witness for C4 on a one-product manager with demand for that product. -/
theorem simulate_day_spec_witness :
    (InventoryManager.simulate_day ⟨[("A", ⟨"A", 1, 10, [⟨5, 2⟩]⟩)]⟩ [("A", 3)]).1.2
      = (Product.fulfill_demand ⟨"A", 1, 10, [⟨5, 2⟩]⟩ 3).1
        + ((InventoryManager.mk (updateP [("A", ⟨"A", 1, 10, [⟨5, 2⟩]⟩)] "A"
            (Product.fulfill_demand ⟨"A", 1, 10, [⟨5, 2⟩]⟩ 3).2)).simulate_day []).1.2 :=
  (simulate_day_spec ⟨[("A", ⟨"A", 1, 10, [⟨5, 2⟩]⟩)]⟩ [("A", 3)]).2.2 ("A") 3 []
    ⟨"A", 1, 10, [⟨5, 2⟩]⟩ (by decide)

theorem lookupP_updateP_self (ps : List (String × Product)) (n : String) (p : Product) :
    lookupP (updateP ps n p) n = (lookupP ps n).map (fun _ => p) := by
  induction ps with
  | nil => rfl
  | cons e t ih =>
    cases he : (e.1 == n) with
    | true => simp [updateP, lookupP, he]
    | false =>
      simp only [updateP, List.map_cons, he, if_false, lookupP]
      rw [if_neg (by simp [he]), if_neg (by simp [he])]
      exact ih

theorem lookupP_updateP_ne (ps : List (String × Product)) (n x : String) (p : Product)
    (h : n ≠ x) : lookupP (updateP ps n p) x = lookupP ps x := by
  induction ps with
  | nil => rfl
  | cons e t ih =>
    cases hn : (e.1 == n) with
    | true =>
      have hx : (e.1 == x) = false := by
        rw [beq_iff_eq] at hn
        exact beq_eq_false_iff_ne.mpr (fun hc => h (by rw [← hn, hc]))
      simp only [updateP, List.map_cons, hn, if_true, lookupP]
      rw [if_neg (by simp [hx]), if_neg (by simp [hx])]
      exact ih
    | false =>
      simp only [updateP, List.map_cons, hn, if_false, lookupP]
      cases hx : (e.1 == x) with
      | true => simp [hx]
      | false =>
        rw [if_neg (by simp [hx]), if_neg (by simp [hx])]
        exact ih

theorem lookupP_mem (ps : List (String × Product)) (name : String) (p : Product)
    (h : lookupP ps name = some p) : ∃ e, e ∈ ps ∧ e.1 = name ∧ e.2 = p := by
  induction ps with
  | nil => cases h
  | cons e t ih =>
    cases he : (e.1 == name) with
    | true =>
      rw [lookupP, if_pos (by simp [he])] at h
      exact ⟨e, by simp, by simpa using he, by simpa using h⟩
    | false =>
      rw [lookupP, if_neg (by simp [he])] at h
      obtain ⟨e₀, hmem, hkey, hval⟩ := ih h
      exact ⟨e₀, by simp [hmem], hkey, hval⟩

@[simp] theorem saveRows_nil : saveRows [] = [] := rfl

theorem saveRows_cons (e : String × Product) (t : List (String × Product)) :
    saveRows (e :: t)
      = e.2.batches.map (fun b => (e.1, b.quantity, b.cost_per_unit)) ++ saveRows t := by
  simp [saveRows]

theorem filter_block_neg (bl : List Batch) (key name : String)
    (h : (key == name) = false) :
    (bl.map (fun b => (key, b.quantity, b.cost_per_unit))).filter
      (fun r => r.1 == name) = [] := by
  induction bl with
  | nil => rfl
  | cons b t ih => simp [List.filter_cons, h, ih]

theorem filter_block_pos (bl : List Batch) (key name : String)
    (h : (key == name) = true) :
    (bl.map (fun b => (key, b.quantity, b.cost_per_unit))).filter
      (fun r => r.1 == name)
      = bl.map (fun b => (key, b.quantity, b.cost_per_unit)) := by
  induction bl with
  | nil => rfl
  | cons b t ih => simp [List.filter_cons, h, ih]

theorem saveRows_filter_not_mem (ps : List (String × Product)) (name : String)
    (h : containsKey ps name = false) :
    (saveRows ps).filter (fun r => r.1 == name) = [] := by
  induction ps with
  | nil => rfl
  | cons e t ih =>
    simp only [containsKey, List.any_cons, Bool.or_eq_false_iff] at h
    rw [saveRows_cons, List.filter_append, filter_block_neg _ _ _ h.1,
      ih (by simpa [containsKey] using h.2), List.append_nil]

theorem saveRows_filter (ps : List (String × Product)) (name : String) (p : Product)
    (hnodup : (ps.map Prod.fst).Nodup) (h : lookupP ps name = some p) :
    (saveRows ps).filter (fun r => r.1 == name)
      = p.batches.map (fun b => (name, b.quantity, b.cost_per_unit)) := by
  induction ps with
  | nil => cases h
  | cons e t ih =>
    rw [List.map_cons] at hnodup
    rcases List.nodup_cons.mp hnodup with ⟨hnotin, hnd⟩
    by_cases he : e.1 = name
    · have hbeq : (e.1 == name) = true := beq_iff_eq.mpr he
      have hp : e.2 = p := by
        rw [lookupP, if_pos (by simp [hbeq])] at h
        simpa using h
      have htail : containsKey t name = false := by
        cases hck : containsKey t name with
        | false => rfl
        | true => exact absurd ((containsKey_iff t name).mp hck) (he ▸ hnotin)
      rw [saveRows_cons, List.filter_append, filter_block_pos _ _ _ hbeq,
        saveRows_filter_not_mem t name htail, List.append_nil, he, hp]
    · have hbeq : (e.1 == name) = false := beq_eq_false_iff_ne.mpr he
      have h' : lookupP t name = some p := by
        rwa [lookupP, if_neg (by simp [hbeq])] at h
      rw [saveRows_cons, List.filter_append, filter_block_neg _ _ _ hbeq,
        List.nil_append]
      exact ih hnd h'

theorem load_batches (rows : List (String × Int × ℚ)) :
    ∀ (ps : List (String × Product)) (name : String) (p : Product),
    lookupP ps name = some p →
    lookupP (rows.foldl loadRow ps) name
      = some { p with batches := p.batches
          ++ (rows.filter (fun r => r.1 == name)).map (fun r => Batch.mk r.2.1 r.2.2) } := by
  induction rows with
  | nil =>
    intro ps name p h
    simp only [List.foldl_nil, List.filter_nil, List.map_nil, List.append_nil]
    exact h
  | cons row rest ih =>
    intro ps name p h
    obtain ⟨rname, q, c⟩ := row
    simp only [List.foldl_cons]
    cases hl : lookupP ps rname with
    | none =>
      have hrn : rname ≠ name := by
        intro he
        rw [he, h] at hl
        cases hl
      have hne : (rname == name) = false := beq_eq_false_iff_ne.mpr hrn
      have hstep : loadRow ps (rname, q, c) = ps := by
        simp [loadRow, hl]
      rw [hstep, List.filter_cons]
      simp only [hne, Bool.false_eq_true, if_false]
      exact ih ps name p h
    | some p₀ =>
      have hstep : loadRow ps (rname, q, c) = updateP ps rname (p₀.add_batch q c) := by
        simp [loadRow, hl]
      by_cases hrn : rname = name
      · subst hrn
        obtain rfl : p₀ = p := by
          rw [h] at hl
          exact (Option.some.inj hl).symm
        have hl2 : lookupP (updateP ps rname (p₀.add_batch q c)) rname
            = some (p₀.add_batch q c) := by
          rw [lookupP_updateP_self, h]
          rfl
        rw [hstep, ih _ rname (p₀.add_batch q c) hl2, List.filter_cons]
        simp [Product.add_batch, List.append_assoc]
      · have hne : (rname == name) = false := beq_eq_false_iff_ne.mpr hrn
        have hl2 : lookupP (updateP ps rname (p₀.add_batch q c)) name = some p :=
          (lookupP_updateP_ne ps rname name _ hrn).symm ▸ h
        rw [hstep, ih _ name p hl2, List.filter_cons]
        simp [hne]

/-- Claim C5: saving an inventory to CSV rows and loading them into a second
manager that has the same product names registered with empty batch lists
reproduces, for every product of the first manager, an identical batch
sequence (same order, same quantities, same per-unit costs). -/
theorem save_load_round_trip (m₁ m₂ : InventoryManager)
    (hnodup : (m₁.products.map Prod.fst).Nodup)
    (hkeys : List.Perm (m₂.products.map Prod.fst) (m₁.products.map Prod.fst))
    (hempty : ∀ e ∈ m₂.products, e.2.batches = [])
    (name : String) (p₁ : Product)
    (h₁ : lookupP m₁.products name = some p₁) :
    ∃ p₂, lookupP (m₂.load_from_csv m₁.save_to_csv).products name = some p₂ ∧
      p₂.batches = p₁.batches := by
  have hc1 : containsKey m₁.products name = true := by
    rw [← lookupP_isSome_eq_containsKey, h₁]
    rfl
  have hc2 : containsKey m₂.products name = true := by
    rw [containsKey_iff]
    exact hkeys.mem_iff.mpr ((containsKey_iff _ _).mp hc1)
  have hsome2 : (lookupP m₂.products name).isSome = true := by
    rw [lookupP_isSome_eq_containsKey, hc2]
  obtain ⟨p₂0, h₂⟩ := Option.isSome_iff_exists.mp hsome2
  have h₂batches : p₂0.batches = [] := by
    obtain ⟨e, hmem, _, hval⟩ := lookupP_mem m₂.products name p₂0 h₂
    rw [← hval]
    exact hempty e hmem
  have hload := load_batches (saveRows m₁.products) m₂.products name p₂0 h₂
  have hfil := saveRows_filter m₁.products name p₁ hnodup h₁
  refine ⟨_, hload, ?_⟩
  show p₂0.batches ++ _ = p₁.batches
  rw [h₂batches, hfil, List.nil_append, List.map_map]
  exact List.map_id p₁.batches

/-- Witness for C5: two products with two and one batches, the second
manager registered with the same names, different cost parameters and no
batches. -/
theorem save_load_round_trip_witness :
    ∃ p₂, lookupP ((InventoryManager.load_from_csv
        ⟨[("A", ⟨"A", 3, 9, []⟩), ("B", ⟨"B", 2, 7, []⟩)]⟩
        (InventoryManager.save_to_csv
          ⟨[("A", ⟨"A", 1, 10, [⟨5, 2⟩, ⟨3, 5/2⟩]⟩), ("B", ⟨"B", 1, 5, [⟨2, 1⟩]⟩)]⟩)).products)
      "A" = some p₂ ∧ p₂.batches = [⟨5, 2⟩, ⟨3, 5/2⟩] :=
  save_load_round_trip
    ⟨[("A", ⟨"A", 1, 10, [⟨5, 2⟩, ⟨3, 5/2⟩]⟩), ("B", ⟨"B", 1, 5, [⟨2, 1⟩]⟩)]⟩
    ⟨[("A", ⟨"A", 3, 9, []⟩), ("B", ⟨"B", 2, 7, []⟩)]⟩
    (by decide) (List.Perm.refl _) (by decide) "A" ⟨"A", 1, 10, [⟨5, 2⟩, ⟨3, 5/2⟩]⟩
    rfl

end Voorraadbeheer
